import Mathlib

/-!
A shallow embedding of the aggsig module (`src/src/modules/aggsig/main_impl.h`
of mwcproject/secp256k1-zkp) together with theorems settling the claims of its
natural-language specification.

The arithmetic backend (scalar/field arithmetic, group operations, SHA-256,
the RFC 6979 HMAC RNG, compressed point serialization) is not part of the
given source tree; the specification (§6) treats it as an external
collaborator with a fixed interface.  It is therefore modelled from the
specification:

* a scalar is an integer mod the curve order `n` (`ZMod nOrder`);
* a field element is an integer mod the field prime `p` (`ZMod pPrime`);
* the secp256k1 group is cyclic of prime order `n`, so a point is represented
  faithfully by its discrete logarithm to the base point `G` (`Point`, again
  `ZMod nOrder`, with `pointG = 1`); point addition, negation, the point at
  infinity (`0`) and scalar multiplication are the ring operations;
* the data the protocol cannot compute from a discrete logarithm — the hash
  function, compressed serialization, the affine x-coordinate, the
  quadratic-residue test on the y-coordinate, the quad-y point recovery,
  and the deterministic RNG — are fields of a `Backend` structure, subject
  only to the algebraic laws the specification gives for them (for the
  quadratic-residue test: `p ≡ 3 (mod 4)`, so for `P` not the point at
  infinity exactly one of `P`, `-P` has a quadratic-residue y-coordinate,
  and the test returns `false` at the point at infinity).

All remaining definitions are direct translations of the C source in
`main_impl.h`.
-/

set_option maxRecDepth 10000

/-- The group order n of secp256k1. -/
def nOrder : Nat := 0xFFFFFFFFFFFFFFFFFFFFFFFFFFFFFFFEBAAEDCE6AF48A03BBFD25E8CD0364141

/-- The field prime p of secp256k1. -/
def pPrime : Nat := 0xFFFFFFFFFFFFFFFFFFFFFFFFFFFFFFFFFFFFFFFFFFFFFFFFFFFFFFFEFFFFFC2F

instance : NeZero nOrder := ⟨by decide⟩

instance : NeZero pPrime := ⟨by decide⟩

/-- Modelled from the spec (§3): a scalar is an integer mod the curve order n. -/
abbrev Scalar : Type := ZMod nOrder

/-- Modelled from the spec (§3, glossary): a field element is an integer mod p. -/
abbrev Fp : Type := ZMod pPrime

/-- Modelled from the spec (§3, §6): the secp256k1 group is cyclic of prime
order n, so a point is represented by its discrete logarithm to the base
point G.  Point addition is `+`, negation is `-`, the point at infinity
is `0`, and `secp256k1_ecmult_gen k` is `k * pointG`. -/
abbrev Point : Type := ZMod nOrder

/-- The base point G in the discrete-logarithm representation. -/
def pointG : Point := 1

/-- Big-endian interpretation of a byte list, as in `secp256k1_scalar_set_b32`
and `secp256k1_fe_set_b32`. -/
def fromBytesBE (l : List Nat) : Nat := l.foldl (fun a b => a * 256 + b) 0

/-- Big-endian encoding of a value into a fixed number of bytes, as in
`secp256k1_scalar_get_b32` and `secp256k1_fe_get_b32`. -/
def natToBytesBE : Nat → Nat → List Nat
  | 0, _ => []
  | c + 1, v => natToBytesBE c (v / 256) ++ [v % 256]

/-- Modelled from the spec (§6): `secp256k1_scalar_set_b32` reduces the
big-endian value mod n and reports whether the raw value overflowed
(was ≥ n). -/
def scalarSetB32 (l : List Nat) : Scalar × Bool :=
  (((fromBytesBE l : Nat) : Scalar), decide (nOrder ≤ fromBytesBE l))

/-- Modelled from the spec (§6): `secp256k1_scalar_get_b32`. -/
def scalarBytes (s : Scalar) : List Nat := natToBytesBE 32 s.val

/-- Modelled from the spec (§6): `secp256k1_fe_set_b32`, which fails on a
non-canonical (≥ p) encoding. -/
def feSetB32 (l : List Nat) : Option Fp :=
  if fromBytesBE l < pPrime then some ((fromBytesBE l : Nat) : Fp) else none

/-- Modelled from the spec (§6): `secp256k1_fe_get_b32`. -/
def feBytes (x : Fp) : List Nat := natToBytesBE 32 x.val

/-- Structural-recursion helper for `varint7` (the fuel is an upper bound on
the encoded value, so the recursion mirrors the C loop exactly). -/
def varint7Aux : Nat → Nat → List Nat
  | 0, _ => []
  | fuel + 1, i => if i = 0 then [] else i % 128 :: varint7Aux fuel (i / 128)

/-- The index encoding of `secp256k1_compute_sighash`: the loop
`while (index > 0) { write(index & 0x7f); index >>= 7; }` — successive 7-bit
little-endian limbs, one byte each, and no bytes at all for index 0. -/
def varint7 (i : Nat) : List Nat := varint7Aux i i

/-- Modelled from the spec (§6): the external collaborators of the aggsig
module that cannot be expressed through the discrete-logarithm
representation alone.  `hash` is SHA-256 (an arbitrary byte function here:
every theorem below holds for every hash function), `serComp` is 33-byte
compressed point serialization, `xCoord` is the affine x-coordinate,
`hasQuadY` is `secp256k1_gej_has_quad_y_var` (false at the point at
infinity; for other points exactly one of `P`, `-P` satisfies it, because
p ≡ 3 (mod 4)), `setXquad` is `secp256k1_ge_set_xquad` (recover the point
with quadratic-residue y from an x-coordinate), and `rfc6979 seed i` is the
i-th 32-byte block drawn from the RFC 6979 HMAC-SHA256 RNG seeded with
`seed`. -/
structure Backend where
  hash : List Nat → List Nat
  serComp : Point → List Nat
  xCoord : Point → Fp
  hasQuadY : Point → Bool
  setXquad : Fp → Point
  rfc6979 : List Nat → Nat → List Nat
  hasQuadY_zero : hasQuadY 0 = false
  hasQuadY_neg : ∀ P : Point, P ≠ 0 → hasQuadY (-P) = ! hasQuadY P
  xCoord_neg : ∀ P : Point, xCoord (-P) = xCoord P
  setXquad_xCoord : ∀ P : Point, hasQuadY P = true → setXquad (xCoord P) = P

/-- `secp256k1_compute_sighash_single`: hash the compressed public nonce and
the message; the scalar is the reduced digest and the `Bool` is the overflow
flag (the C function returns `!overflow` but writes the reduced scalar
unconditionally). -/
def computeSighashSingle (B : Backend) (pub : Point) (msg32 : List Nat) : Scalar × Bool :=
  scalarSetB32 (B.hash (B.serComp pub ++ msg32))

/-- `secp256k1_compute_prehash`: hash of all compressed public keys, the
x-coordinate of the combined nonce, and the message. -/
def computePrehash (B : Backend) (pubkeys : List Point) (rx : Fp) (msg32 : List Nat) : List Nat :=
  B.hash ((pubkeys.map B.serComp).flatten ++ feBytes rx ++ msg32)

/-- `secp256k1_compute_sighash`: per-index challenge; `none` models the
`return !overflow`-is-zero failure. -/
def computeSighash (B : Backend) (prehash : List Nat) (index : Nat) : Option Scalar :=
  let r := scalarSetB32 (B.hash (varint7 index ++ prehash))
  if r.2 then none else some r.1

/-- The rejection-sampling loop of `secp256k1_aggsig_generate_nonce_single`:
draw 32 bytes at stream position `pos`, retry on overflow or zero.  The C
loop has no bound (the retry branch is cryptographically unreachable); the
fuel models its possible divergence as failure.  Returns the accepted scalar
and the next stream position. -/
def genNonceDraw (stream : Nat → List Nat) : Nat → Nat → Option (Scalar × Nat)
  | 0, _ => none
  | fuel + 1, pos =>
    let r := scalarSetB32 (stream pos)
    if r.2 || decide (r.1 = 0) then genNonceDraw stream fuel (pos + 1)
    else some (r.1, pos + 1)

/-- `secp256k1_aggsig_generate_nonce_single`: draw a nonzero scalar, compute
its public point, and negate both if the point's y is not a quadratic
residue.  Returns `(k, K, next stream position)`. -/
def genNonceSingle (B : Backend) (stream : Nat → List Nat) (fuel pos : Nat) :
    Option (Scalar × Point × Nat) :=
  (genNonceDraw stream fuel pos).map fun kp =>
    let K := kp.1 * pointG
    if B.hasQuadY K then (kp.1, K, kp.2) else (-kp.1, -K, kp.2)

/-- The `nonce_progress` state of a cosigner slot. -/
inductive NonceProgress where
  | unknown
  | other
  | ours
  | signed
deriving DecidableEq

/-- `secp256k1_aggsig_context_struct`.  The C parallel arrays `progress` and
`secnonce` (of length `pubkeys.length = n_sigs`) are modelled as functions
from slot index; the C `secnonce` array is uninitialized at creation and is
never read before being written, so initializing it to 0 is unobservable.
The session RNG is modelled by its remaining stream: the block function
fixed at creation plus the position of the next draw. -/
structure Session where
  pubkeys : List Point
  progress : Nat → NonceProgress
  secnonce : Nat → Scalar
  pubnonceSum : Point
  rngStream : Nat → List Nat
  rngPos : Nat

/-- A default session (used only as an `Option.getD` default). -/
def emptySession : Session :=
  ⟨[], fun _ => NonceProgress.unknown, fun _ => 0, 0, fun _ => [], 0⟩

/-- `secp256k1_aggsig_context_create`: copy the pubkeys, zero all progress
states, set the combined nonce to the point at infinity, seed the RNG. -/
def contextCreate (B : Backend) (pubkeys : List Point) (seed : List Nat) : Session :=
  ⟨pubkeys, fun _ => NonceProgress.unknown, fun _ => 0, 0, B.rfc6979 seed, 0⟩

/-- `secp256k1_aggsig_generate_nonce`: fails (without mutation) when the
index is out of range or the slot is not `unknown`; otherwise draws a nonce,
stores the secret scalar, adds the public point into the combined nonce and
marks the slot `ours`. -/
def generateNonce (B : Backend) (fuel : Nat) (s : Session) (i : Nat) : Option Session :=
  if i < s.pubkeys.length then
    if s.progress i = NonceProgress.unknown then
      match genNonceSingle B s.rngStream fuel s.rngPos with
      | none => none
      | some (k, K, pos2) =>
        some { s with
          secnonce := fun j => if j = i then k else s.secnonce j,
          pubnonceSum := s.pubnonceSum + K,
          progress := fun j => if j = i then NonceProgress.ours else s.progress j,
          rngPos := pos2 }
    else none
  else none

/-- `secp256k1_aggsig_partial_sign`.  Mirrors the C control flow exactly:
the argument and state-machine checks come first; then, if the combined
nonce's y is not a quadratic residue, the slot's secret nonce is negated in
place (this happens before the sighash and secret-key overflow checks, so
those failure paths return the already-mutated session `s1`); on success the
partial scalar is emitted and the slot is marked `signed`. -/
def partialSign (B : Backend) (s : Session) (msg32 sk32 : List Nat) (i : Nat) :
    Option (List Nat) × Session :=
  if i < s.pubkeys.length then
    if (List.range s.pubkeys.length).all
        (fun j => decide (s.progress j ≠ NonceProgress.unknown)) then
      if s.progress i = NonceProgress.ours then
        let doNeg : Bool := ! B.hasQuadY s.pubnonceSum
        let s1 : Session :=
          if doNeg then
            { s with secnonce := fun j => if j = i then - s.secnonce j else s.secnonce j }
          else s
        let rx : Fp := if doNeg then B.xCoord (- s.pubnonceSum) else B.xCoord s.pubnonceSum
        match computeSighash B (computePrehash B s.pubkeys rx msg32) i with
        | none => (none, s1)
        | some e =>
          let sec := scalarSetB32 sk32
          if sec.2 then (none, s1)
          else
            (some (scalarBytes (sec.1 * e + s1.secnonce i)),
             { s1 with progress := fun j => if j = i then NonceProgress.signed else s1.progress j })
      else (none, s)
    else (none, s)
  else (none, s)

/-- `secp256k1_aggsig_combine_signatures`: check the partial count, parse
every partial (overflow is failure, before any mutation), sum them, negate
the combined nonce in place when its y is not a quadratic residue, and emit
`s ‖ R_sum.x`. -/
def combineSignatures (B : Backend) (s : Session) (partials : List (List Nat)) :
    Option (List Nat) × Session :=
  if partials.length = s.pubkeys.length then
    if partials.all (fun pb => ! (scalarSetB32 pb).2) then
      let ssum : Scalar := (partials.map (fun pb => (scalarSetB32 pb).1)).sum
      let s2 : Session :=
        if B.hasQuadY s.pubnonceSum then s else { s with pubnonceSum := - s.pubnonceSum }
      (some (scalarBytes ssum ++ feBytes (B.xCoord s2.pubnonceSum)), s2)
    else (none, s)
  else (none, s)

/-- Modelled from the spec (§6, §9): `secp256k1_ecmult_multi_var` computes
`g·G + Σ cb(i).1 · cb(i).2` for `i = 0 … num-1`, aborting the whole
operation when any producer callback fails. -/
def ecmultMultiVar (g : Scalar) (cb : Nat → Option (Scalar × Point)) (num : Nat) :
    Option Point :=
  (List.range num).foldl
    (fun acc i => acc.bind fun Q => (cb i).map fun sp => Q + sp.1 * sp.2)
    (some (g * pointG))

/-- `secp256k1_aggsig_verify` (with `secp256k1_aggsig_verify_callback`
supplying `(-e_i, P_i)` pairs to the multi-scalar engine): reject N = 0, a
non-canonical `s` or `R_x`, or a sighash overflow; otherwise accept iff the
computed point `Q = s·G − Σ e_i·P_i` has `Q.x = R_x` and quadratic-residue
y. -/
def aggsigVerify (B : Backend) (sig64 msg32 : List Nat) (pubkeys : List Point) : Bool :=
  if pubkeys.length = 0 then false
  else
    let sres := scalarSetB32 (sig64.take 32)
    if sres.2 then false
    else
      match feSetB32 (sig64.drop 32) with
      | none => false
      | some rx =>
        let prehash := computePrehash B pubkeys rx msg32
        match ecmultMultiVar sres.1
            (fun i => (computeSighash B prehash i).map fun e => (-e, pubkeys.getD i 0))
            pubkeys.length with
        | none => false
        | some Q => decide (B.xCoord Q = rx) && B.hasQuadY Q

/-- `secp256k1_aggsig_verify_single` (with
`secp256k1_aggsig_verify_callback_single`).  When no explicit public nonce
is given, the nonce point is recovered from `R_x` by `set_xquad`.  The
single-signer sighash's overflow flag is ignored, exactly as in the C
code. -/
def verifySingle (B : Backend) (sig64 msg32 : List Nat) (pubnonce : Option Point)
    (pubkey : Point) : Bool :=
  let sres := scalarSetB32 (sig64.take 32)
  if sres.2 then false
  else
    match feSetB32 (sig64.drop 32) with
    | none => false
    | some rx =>
      let e : Scalar :=
        match pubnonce with
        | some pn => (computeSighashSingle B pn msg32).1
        | none => (computeSighashSingle B (B.setXquad rx) msg32).1
      match ecmultMultiVar sres.1 (fun _ => some (-e, pubkey)) 1 with
      | none => false
      | some Q => decide (B.xCoord Q = rx) && B.hasQuadY Q

/-- The nonce stage of `secp256k1_aggsig_sign_single` (lines 207–224): either
generate a nonce from the seed-derived RNG, or parse the externally supplied
32-byte secret nonce — ignoring its overflow flag — compute its public
point, and negate both if the point's y is not a quadratic residue. -/
def signSingleNonce (B : Backend) (secnonce32 : Option (List Nat)) (seed : List Nat)
    (fuel : Nat) : Option (Scalar × Point) :=
  match secnonce32 with
  | none => (genNonceSingle B (B.rfc6979 seed) fuel 0).map fun x => (x.1, x.2.1)
  | some nb =>
    let k := (scalarSetB32 nb).1
    let K := k * pointG
    if B.hasQuadY K then some (k, K) else some (-k, -K)

/-- `secp256k1_aggsig_sign_single`.  After the nonce stage there is a second
quadratic-residue check that negates the secret nonce and the affine copy of
the nonce point (but not the point used for the output x-coordinate); the
single-signer sighash's overflow flag is ignored; the secret key's overflow
is a failure; the result is `s ‖ R.x` with `s = sk·e + k`. -/
def signSingle (B : Backend) (msg32 sk32 : List Nat) (secnonce32 : Option (List Nat))
    (pubnonceAssoc : Option Point) (seed : List Nat) (fuel : Nat) : Option (List Nat) :=
  match signSingleNonce B secnonce32 seed fuel with
  | none => none
  | some (k0, K0) =>
    let doNeg : Bool := ! B.hasQuadY K0
    let k1 : Scalar := if doNeg then -k0 else k0
    let T : Point := if doNeg then -K0 else K0
    let e : Scalar :=
      match pubnonceAssoc with
      | some pn => (computeSighashSingle B pn msg32).1
      | none => (computeSighashSingle B T msg32).1
    let sec := scalarSetB32 sk32
    if sec.2 then none
    else some (scalarBytes (sec.1 * e + k1) ++ feBytes (B.xCoord K0))

/-- `secp256k1_aggsig_sign_single` with the second quadratic-residue check
(lines 228–231 of the source) removed — the comparison point for claim C9's
observable-equivalence statement. -/
def signSingleNoSecondCheck (B : Backend) (msg32 sk32 : List Nat)
    (secnonce32 : Option (List Nat)) (pubnonceAssoc : Option Point) (seed : List Nat)
    (fuel : Nat) : Option (List Nat) :=
  match signSingleNonce B secnonce32 seed fuel with
  | none => none
  | some (k0, K0) =>
    let e : Scalar :=
      match pubnonceAssoc with
      | some pn => (computeSighashSingle B pn msg32).1
      | none => (computeSighashSingle B K0 msg32).1
    let sec := scalarSetB32 sk32
    if sec.2 then none
    else some (scalarBytes (sec.1 * e + k0) ++ feBytes (B.xCoord K0))

/-- Run `secp256k1_aggsig_generate_nonce` on the `m` consecutive slots
`i, i+1, …, i+m-1`, aborting on the first failure. -/
def genAllFrom (B : Backend) (fuel : Nat) : Nat → Nat → Session → Option Session
  | _, 0, s => some s
  | i, m + 1, s => (generateNonce B fuel s i).bind fun s1 => genAllFrom B fuel (i + 1) m s1

/-- Run `secp256k1_aggsig_partial_sign` on the `m` consecutive slots
`i, …, i+m-1`, the slot-`j` call using secret key bytes `skb j`; collects
the partial signatures, aborting on the first failure. -/
def signAllFrom (B : Backend) (msg32 : List Nat) (skb : Nat → List Nat) :
    Nat → Nat → Session → Option (List (List Nat) × Session)
  | _, 0, s => some ([], s)
  | i, m + 1, s =>
    match partialSign B s msg32 (skb i) i with
    | (some pb, s1) =>
      (signAllFrom B msg32 skb (i + 1) m s1).map fun r => (pb :: r.1, r.2)
    | (none, _) => none

/-- The full aggregate protocol of claim C1: create a context over the
public keys derived from `sks`, generate a nonce for every slot, produce
every partial signature, combine them, and return the aggregate verifier's
verdict on the result.  `none` means some step failed. -/
def runAggProtocol (B : Backend) (sks : List Scalar) (seed msg32 : List Nat)
    (fuel : Nat) : Option Bool :=
  let pks := sks.map fun a => a * pointG
  (genAllFrom B fuel 0 pks.length (contextCreate B pks seed)).bind fun s1 =>
    (signAllFrom B msg32 (fun i => scalarBytes (sks.getD i 0)) 0 pks.length s1).bind fun r =>
      match combineSignatures B r.2 r.1 with
      | (some sig, _) => some (aggsigVerify B sig msg32 pks)
      | (none, _) => none

/-- Sign with the single-party fast path (no external nonce, no associated
public nonce) and hand the result to the aggregate verifier with the
one-element public-key list — the composition claim C3 asserts to accept. -/
def signThenAggVerify (B : Backend) (msg32 sk32 seed : List Nat) (fuel : Nat)
    (pk : Point) : Option Bool :=
  (signSingle B msg32 sk32 none none seed fuel).map fun sig =>
    aggsigVerify B sig msg32 [pk]

/-- One step of the session API, for the temporal statements of claim C5:
an operation together with its arguments.  A failing operation leaves the
session as the C code leaves it (unchanged for `generateNonce`, the possibly
nonce-negated session for `partialSign`). -/
inductive AggOp where
  | genNonce (fuel i : Nat)
  | pSign (msg32 sk32 : List Nat) (i : Nat)
  | combineOp (partials : List (List Nat))

/-- Apply one session operation. -/
def applyOp (B : Backend) (s : Session) : AggOp → Session
  | AggOp.genNonce fuel i => (generateNonce B fuel s i).getD s
  | AggOp.pSign m k i => (partialSign B s m k i).2
  | AggOp.combineOp ps => (combineSignatures B s ps).2

/-! ### Abbreviations used by the partial-signature algebra -/

/-- The sign with which `partial_sign` uses the stored secret nonce: `1` when
the combined public nonce has quadratic-residue y, `-1` otherwise (the
in-place negation of lines 291–295 of the source). -/
def psEps (B : Backend) (s : Session) : Scalar :=
  if B.hasQuadY s.pubnonceSum then 1 else -1

/-- The x-coordinate fed into the prehash by `partial_sign`: the affine x of
the combined nonce, possibly after the sign flip. -/
def psRx (B : Backend) (s : Session) : Fp :=
  if B.hasQuadY s.pubnonceSum then B.xCoord s.pubnonceSum else B.xCoord (- s.pubnonceSum)

/-- The prehash a `partial_sign` call on session `s` computes. -/
def prehashOf (B : Backend) (s : Session) (msg32 : List Nat) : List Nat :=
  computePrehash B s.pubkeys (psRx B s) msg32

/-- The prehash the aggregate verifier computes from a 64-byte signature
(the parsed `R_x` fed into `secp256k1_compute_prehash`). -/
def verifyPrehash (B : Backend) (sig64 msg32 : List Nat) (pks : List Point) : List Nat :=
  computePrehash B pks ((feSetB32 (sig64.drop 32)).getD 0) msg32

/-- The point `Q = s·G − Σ e_i·P_i` of the verification equation of claim
C2, with `e_i` the per-index sighash of the verifier's prehash. -/
def verifyQ (B : Backend) (sig64 msg32 : List Nat) (pks : List Point) : Point :=
  (scalarSetB32 (sig64.take 32)).1 * pointG -
    ((List.range pks.length).map fun i =>
      ((computeSighash B (verifyPrehash B sig64 msg32 pks) i).getD 0) * pks.getD i 0).sum

/-! ### A concrete backend instance

Used by the witnesses and counterexamples below.  `toyHasQuadY` takes the
representatives `1 … (n-1)/2` as the quadratic-residue half (any choice
satisfying the sign laws will do — which half of each `{P, -P}` pair is the
quadratic-residue one is exactly what the discrete-log representation cannot
compute), `toyXCoord` is the canonical representative of `{P, -P}`, and
`toyHash` records the input length. -/

/-- Half of the group order, rounded down. -/
def hHalf : Nat := (nOrder - 1) / 2

/-- A sign predicate satisfying the `hasQuadY` laws. -/
def toyHasQuadY (P : Point) : Bool := decide (0 < P.val ∧ P.val ≤ hHalf)

/-- An x-coordinate function: the canonical representative of `{P, -P}`. -/
def toyXCoord (P : Point) : Fp := ((min P.val (nOrder - P.val) : Nat) : Fp)

/-- Recover a point from a `toyXCoord` value. -/
def toySetXquad (x : Fp) : Point := ((x.val : Nat) : Point)

/-- A 33-byte serialization. -/
def toySerComp (P : Point) : List Nat := 2 :: feBytes (toyXCoord P)

/-- A 32-byte hash recording the input length in its leading byte. -/
def toyHash (l : List Nat) : List Nat := l.length % 256 :: List.replicate 31 0

/-- A deterministic RNG stream: the draws are `hHalf, hHalf, 1, 1, 1, …`. -/
def toyRng (_seed : List Nat) (i : Nat) : List Nat :=
  natToBytesBE 32 ([hHalf, hHalf, 1].getD i 1)

/-- The concrete backend used by witnesses and counterexamples. -/
def toyBackend : Backend where
  hash := toyHash
  serComp := toySerComp
  xCoord := toyXCoord
  hasQuadY := toyHasQuadY
  setXquad := toySetXquad
  rfc6979 := toyRng
  hasQuadY_zero := by decide
  hasQuadY_neg := by
    intro P h
    have hv0 : P.val ≠ 0 := fun hz => h ((ZMod.val_eq_zero P).mp hz)
    have hvn : P.val < nOrder := ZMod.val_lt P
    have hneg : (-P).val = nOrder - P.val := by
      rw [ZMod.neg_val]
      simp [h]
    have hn : nOrder = 2 * hHalf + 1 := by decide
    unfold toyHasQuadY
    rw [hneg]
    by_cases hle : P.val ≤ hHalf
    · have h1 : ¬ (nOrder - P.val ≤ hHalf) := by omega
      have h0 : 0 < P.val := Nat.pos_of_ne_zero hv0
      simp [hle, h1, h0]
    · have h1 : nOrder - P.val ≤ hHalf := by omega
      have h2 : 0 < nOrder - P.val := by omega
      simp [hle, h1, h2]
  xCoord_neg := by
    intro P
    by_cases h : P = 0
    · rw [h, neg_zero]
    · have hvn : P.val < nOrder := ZMod.val_lt P
      have hneg : (-P).val = nOrder - P.val := by
        rw [ZMod.neg_val]
        simp [h]
      unfold toyXCoord
      rw [hneg, Nat.sub_sub_self (Nat.le_of_lt hvn), Nat.min_comm]
  setXquad_xCoord := by
    intro P h
    have hq : 0 < P.val ∧ P.val ≤ hHalf := of_decide_eq_true h
    have hvn : P.val < nOrder := ZMod.val_lt P
    have hmin : min P.val (nOrder - P.val) = P.val := by
      have hn : nOrder = 2 * hHalf + 1 := by decide
      omega
    have hvp : P.val < pPrime := Nat.lt_trans hvn (by decide)
    unfold toySetXquad toyXCoord
    rw [hmin, ZMod.val_cast_of_lt hvp, ZMod.natCast_zmod_val]

/-- The toy backend with a hash whose output always overflows the curve
order (every byte 0xFF), exercising the sighash-overflow paths. -/
def toyBackendFF : Backend := { toyBackend with hash := fun _ => List.replicate 32 255 }

/-! ### Concrete inputs for witnesses and counterexamples -/

/-- A 32-byte all-zero message. -/
def zeros32 : List Nat := List.replicate 32 0

/-- 32 bytes of 0xFF: the big-endian value `2^256 - 1`, which overflows both
the curve order and the field prime. -/
def bytesFF : List Nat := List.replicate 32 255

/-- A session in which every slot holds a generated nonce (`ours`, secret
scalar `hHalf`) and the combined public nonce `-1` does not have
quadratic-residue y — the state exercising the in-place nonce negation of
`partial_sign`. -/
def sessNegQ : Session :=
  ⟨[pointG, pointG], fun _ => NonceProgress.ours, fun _ => ((hHalf : Nat) : Scalar),
    -1, fun _ => [], 0⟩

/-- A session whose slot 0 is `signed` and slot 1 still `unknown`. -/
def sessSigned : Session :=
  ⟨[pointG, pointG],
    fun j => if j = 0 then NonceProgress.signed else NonceProgress.unknown,
    fun _ => 1, pointG, fun _ => [], 0⟩

/-- A fresh two-slot session (all slots `unknown`). -/
def sessFresh : Session := contextCreate toyBackend [pointG, pointG] zeros32

/-- The signature the single-party fast path produces for secret key 1,
an all-zero message and seed, with no external nonce. -/
def sigSingle1 : List Nat :=
  (signSingle toyBackend zeros32 (scalarBytes 1) none none zeros32 1).getD []

/-! ### Byte-encoding lemmas -/

lemma fromBytesBE_append_one (l : List Nat) (b : Nat) :
    fromBytesBE (l ++ [b]) = fromBytesBE l * 256 + b := by
  unfold fromBytesBE
  rw [List.foldl_append]
  rfl

lemma fromBytesBE_natToBytesBE : ∀ c v : Nat, v < 256 ^ c →
    fromBytesBE (natToBytesBE c v) = v := by
  intro c
  induction c with
  | zero =>
    intro v hv
    have hv0 : v = 0 := by simpa using hv
    simp [natToBytesBE, fromBytesBE, hv0]
  | succ c ih =>
    intro v hv
    have hdiv : v / 256 < 256 ^ c := by
      apply Nat.div_lt_of_lt_mul
      rw [← pow_succ']
      exact hv
    rw [natToBytesBE, fromBytesBE_append_one, ih (v / 256) hdiv, mul_comm,
      Nat.div_add_mod]

lemma natToBytesBE_length : ∀ c v : Nat, (natToBytesBE c v).length = c := by
  intro c
  induction c with
  | zero => intro v; rfl
  | succ c ih =>
    intro v
    rw [natToBytesBE, List.length_append, ih]
    rfl

lemma nOrder_lt_pow : nOrder < 256 ^ 32 := by decide

lemma pPrime_lt_pow : pPrime < 256 ^ 32 := by decide

lemma scalarBytes_length (s : Scalar) : (scalarBytes s).length = 32 :=
  natToBytesBE_length 32 s.val

lemma feBytes_length (x : Fp) : (feBytes x).length = 32 :=
  natToBytesBE_length 32 x.val

lemma scalarSetB32_scalarBytes (s : Scalar) : scalarSetB32 (scalarBytes s) = (s, false) := by
  have hv : s.val < nOrder := ZMod.val_lt s
  have h2 : s.val < 256 ^ 32 := Nat.lt_trans hv nOrder_lt_pow
  unfold scalarSetB32 scalarBytes
  rw [fromBytesBE_natToBytesBE 32 s.val h2, ZMod.natCast_zmod_val,
    decide_eq_false (Nat.not_le.mpr hv)]

lemma feSetB32_feBytes (x : Fp) : feSetB32 (feBytes x) = some x := by
  have hv : x.val < pPrime := ZMod.val_lt x
  have h2 : x.val < 256 ^ 32 := Nat.lt_trans hv pPrime_lt_pow
  unfold feSetB32 feBytes
  rw [fromBytesBE_natToBytesBE 32 x.val h2, if_pos hv, ZMod.natCast_zmod_val]

/-! ### The index encoding -/

lemma varint7Aux_eq_digits : ∀ fuel i : Nat, i ≤ fuel →
    varint7Aux fuel i = Nat.digits 128 i := by
  intro fuel
  induction fuel with
  | zero =>
    intro i h
    have h0 : i = 0 := Nat.le_zero.mp h
    simp [varint7Aux, h0]
  | succ f ih =>
    intro i h
    by_cases h0 : i = 0
    · simp [varint7Aux, h0]
    · have hpos : 0 < i := Nat.pos_of_ne_zero h0
      have hlt : i / 128 < i := Nat.div_lt_self hpos (by norm_num)
      rw [varint7Aux, if_neg h0, ih (i / 128) (by omega),
        Nat.digits_def' (by norm_num : 1 < 128) hpos]

lemma varint7_eq_digits (i : Nat) : varint7 i = Nat.digits 128 i :=
  varint7Aux_eq_digits i i le_rfl

/-! ### List-sum helpers -/

lemma scalarSum_map_add {α : Type} (l : List α) (f g : α → Scalar) :
    (l.map fun x => f x + g x).sum = (l.map f).sum + (l.map g).sum := by
  induction l with
  | nil => simp
  | cons a t ih =>
    simp only [List.map_cons, List.sum_cons, ih]
    ring

lemma scalarSum_map_mul {α : Type} (l : List α) (c : Scalar) (f : α → Scalar) :
    (l.map fun x => c * f x).sum = c * (l.map f).sum := by
  induction l with
  | nil => simp
  | cons a t ih =>
    simp only [List.map_cons, List.sum_cons, ih]
    ring

lemma scalarSum_map_neg {α : Type} (l : List α) (f : α → Scalar) :
    (l.map fun x => - f x).sum = - (l.map f).sum := by
  induction l with
  | nil => simp
  | cons a t ih =>
    simp only [List.map_cons, List.sum_cons, ih]
    ring

/-! ### The multi-scalar engine -/

lemma ecmultMultiVar_char (g : Scalar) (cb : Nat → Option (Scalar × Point)) :
    ∀ num, ecmultMultiVar g cb num =
      if (List.range num).all (fun i => (cb i).isSome) then
        some (g * pointG + ((List.range num).map fun i =>
          ((cb i).getD (0, 0)).1 * ((cb i).getD (0, 0)).2).sum)
      else none := by
  intro num
  induction num with
  | zero => simp [ecmultMultiVar]
  | succ n ih =>
    unfold ecmultMultiVar at ih ⊢
    rw [List.range_succ, List.foldl_append, ih, List.all_append, List.map_append,
      List.sum_append]
    by_cases hall : (List.range n).all (fun i => (cb i).isSome)
    · rw [if_pos hall]
      cases hcb : cb n with
      | none => simp [hcb]
      | some sp => simp [hcb, add_assoc, hall]
    · rw [if_neg hall]
      simp [hall]

/-! ### Nonce generation -/

lemma genNonceDraw_ne_zero (stream : Nat → List Nat) :
    ∀ fuel pos k pos2, genNonceDraw stream fuel pos = some (k, pos2) → k ≠ 0 := by
  intro fuel
  induction fuel with
  | zero => intro pos k pos2 h; simp [genNonceDraw] at h
  | succ f ih =>
    intro pos k pos2 h
    rw [genNonceDraw] at h
    split at h
    · exact ih _ _ _ h
    · rename_i hcond
      simp only [Bool.or_eq_true, decide_eq_true_eq, not_or] at hcond
      injection h with h1
      injection h1 with hk _
      exact hk ▸ hcond.2

lemma genNonceSingle_spec (B : Backend) (stream : Nat → List Nat) (fuel pos : Nat)
    (k : Scalar) (K : Point) (pos2 : Nat)
    (h : genNonceSingle B stream fuel pos = some (k, K, pos2)) :
    k ≠ 0 ∧ K = k * pointG ∧ B.hasQuadY K = true := by
  unfold genNonceSingle at h
  cases hd : genNonceDraw stream fuel pos with
  | none => rw [hd] at h; simp at h
  | some kp =>
    obtain ⟨k0, p0⟩ := kp
    have hk0 : k0 ≠ 0 := genNonceDraw_ne_zero stream fuel pos k0 p0 hd
    have hKne : k0 * pointG ≠ 0 := by
      rw [pointG, mul_one]
      exact hk0
    rw [hd] at h
    simp only [Option.map_some'] at h
    by_cases hq : B.hasQuadY (k0 * pointG)
    · rw [if_pos hq] at h
      simp only [Option.some.injEq, Prod.mk.injEq] at h
      obtain ⟨hk, hK, -⟩ := h
      subst hk
      subst hK
      exact ⟨hk0, rfl, hq⟩
    · rw [if_neg hq] at h
      simp only [Option.some.injEq, Prod.mk.injEq] at h
      obtain ⟨hk, hK, -⟩ := h
      subst hk
      subst hK
      refine ⟨neg_ne_zero.mpr hk0, (neg_mul k0 pointG).symm, ?_⟩
      rw [B.hasQuadY_neg _ hKne, Bool.eq_false_iff.mpr hq]
      rfl

/-! ### Session operations -/

lemma generateNonce_none_of_progress (B : Backend) (fuel : Nat) (s : Session) (i : Nat)
    (h : s.progress i ≠ NonceProgress.unknown) : generateNonce B fuel s i = none := by
  unfold generateNonce
  by_cases hi : i < s.pubkeys.length
  · rw [if_pos hi, if_neg h]
  · rw [if_neg hi]

lemma generateNonce_some (B : Backend) (fuel : Nat) (s : Session) (i : Nat) (s2 : Session)
    (h : generateNonce B fuel s i = some s2) :
    i < s.pubkeys.length ∧ s.progress i = NonceProgress.unknown ∧
    ∃ k : Scalar, ∃ pos2 : Nat,
      k ≠ 0 ∧ B.hasQuadY (k * pointG) = true ∧
      s2.pubkeys = s.pubkeys ∧ s2.rngStream = s.rngStream ∧ s2.rngPos = pos2 ∧
      s2.pubnonceSum = s.pubnonceSum + k * pointG ∧
      s2.progress i = NonceProgress.ours ∧ s2.secnonce i = k ∧
      (∀ j, j ≠ i → s2.progress j = s.progress j ∧ s2.secnonce j = s.secnonce j) := by
  unfold generateNonce at h
  split at h
  case isFalse => simp at h
  case isTrue hi =>
    split at h
    case isFalse => simp at h
    case isTrue hu =>
      cases hg : genNonceSingle B s.rngStream fuel s.rngPos with
      | none => rw [hg] at h; simp at h
      | some kKp =>
        obtain ⟨k, K, pos2⟩ := kKp
        rw [hg] at h
        obtain ⟨hk0, hK, hq⟩ := genNonceSingle_spec B _ fuel _ k K pos2 hg
        simp only [Option.some.injEq] at h
        subst h
        refine ⟨hi, hu, k, pos2, hk0, hK ▸ hq, rfl, rfl, rfl, ?_, by simp, by simp, ?_⟩
        · show s.pubnonceSum + K = s.pubnonceSum + k * pointG
          rw [hK]
        · intro j hj
          constructor <;> simp [hj]

lemma partialSign_some (B : Backend) (s : Session) (msg32 sk32 : List Nat) (i : Nat)
    (pb : List Nat) (s2 : Session)
    (h : partialSign B s msg32 sk32 i = (some pb, s2)) :
    i < s.pubkeys.length ∧
    (∀ j, j < s.pubkeys.length → s.progress j ≠ NonceProgress.unknown) ∧
    s.progress i = NonceProgress.ours ∧
    ∃ e : Scalar,
      computeSighash B (prehashOf B s msg32) i = some e ∧
      (scalarSetB32 sk32).2 = false ∧
      pb = scalarBytes ((scalarSetB32 sk32).1 * e + psEps B s * s.secnonce i) ∧
      s2.pubkeys = s.pubkeys ∧ s2.pubnonceSum = s.pubnonceSum ∧
      s2.rngStream = s.rngStream ∧ s2.rngPos = s.rngPos ∧
      s2.progress i = NonceProgress.signed ∧
      s2.secnonce i = psEps B s * s.secnonce i ∧
      (∀ j, j ≠ i → s2.progress j = s.progress j ∧ s2.secnonce j = s.secnonce j) := by
  unfold partialSign at h
  split at h
  case isFalse => simp at h
  case isTrue hi =>
    split at h
    case isFalse => simp at h
    case isTrue hall =>
      split at h
      case isFalse => simp at h
      case isTrue hours =>
        have hall2 : ∀ j, j < s.pubkeys.length → s.progress j ≠ NonceProgress.unknown := by
          intro j hj
          have := List.all_eq_true.mp hall j (List.mem_range.mpr hj)
          exact of_decide_eq_true this
        cases hq : B.hasQuadY s.pubnonceSum with
        | true =>
          simp only [hq, Bool.not_true, Bool.false_eq_true, ite_false] at h
          cases hcs : computeSighash B
              (computePrehash B s.pubkeys (B.xCoord s.pubnonceSum) msg32) i with
          | none => rw [hcs] at h; simp at h
          | some e =>
            rw [hcs] at h
            cases hov : (scalarSetB32 sk32).2 with
            | true =>
              rw [hov] at h
              simp at h
            | false =>
              rw [hov] at h
              simp only [Bool.false_eq_true, ite_false] at h
              simp only [Prod.mk.injEq, Option.some.injEq] at h
              obtain ⟨hpb, hs2⟩ := h
              subst hs2
              refine ⟨hi, hall2, hours, e, ?_, rfl, ?_, rfl, rfl, rfl, rfl, by simp, ?_, ?_⟩
              · simpa [prehashOf, psRx, hq] using hcs
              · rw [← hpb]
                simp [psEps, hq]
              · simp [psEps, hq]
              · intro j hj
                constructor <;> simp [hj]
        | false =>
          simp only [hq, Bool.not_false, ite_true] at h
          cases hcs : computeSighash B
              (computePrehash B s.pubkeys (B.xCoord (- s.pubnonceSum)) msg32) i with
          | none => rw [hcs] at h; simp at h
          | some e =>
            rw [hcs] at h
            cases hov : (scalarSetB32 sk32).2 with
            | true =>
              rw [hov] at h
              simp at h
            | false =>
              rw [hov] at h
              simp only [Bool.false_eq_true, ite_false] at h
              simp only [Prod.mk.injEq, Option.some.injEq] at h
              obtain ⟨hpb, hs2⟩ := h
              subst hs2
              refine ⟨hi, hall2, hours, e, ?_, rfl, ?_, rfl, rfl, rfl, rfl, by simp, ?_, ?_⟩
              · simpa [prehashOf, psRx, hq] using hcs
              · rw [← hpb]
                simp [psEps, hq]
              · simp [psEps, hq]
              · intro j hj
                constructor <;> simp [hj]

lemma partialSign_fail (B : Backend) (s : Session) (msg32 sk32 : List Nat) (i : Nat)
    (h : (partialSign B s msg32 sk32 i).1 = none) :
    (partialSign B s msg32 sk32 i).2.pubkeys = s.pubkeys ∧
    (partialSign B s msg32 sk32 i).2.pubnonceSum = s.pubnonceSum ∧
    (partialSign B s msg32 sk32 i).2.rngStream = s.rngStream ∧
    (partialSign B s msg32 sk32 i).2.rngPos = s.rngPos ∧
    (partialSign B s msg32 sk32 i).2.progress = s.progress ∧
    ((partialSign B s msg32 sk32 i).2.secnonce = s.secnonce ∨
      (B.hasQuadY s.pubnonceSum = false ∧
        (partialSign B s msg32 sk32 i).2.secnonce =
          fun j => if j = i then - s.secnonce j else s.secnonce j)) := by
  rcases hres : partialSign B s msg32 sk32 i with ⟨r1, s2⟩
  have hr1 : r1 = none := by rw [hres] at h; exact h
  subst hr1
  unfold partialSign at hres
  split at hres
  case isFalse =>
    injection hres with h1 h2
    subst h2
    exact ⟨rfl, rfl, rfl, rfl, rfl, Or.inl rfl⟩
  case isTrue hi =>
    split at hres
    case isFalse =>
      injection hres with h1 h2
      subst h2
      exact ⟨rfl, rfl, rfl, rfl, rfl, Or.inl rfl⟩
    case isTrue hall =>
      split at hres
      case isFalse =>
        injection hres with h1 h2
        subst h2
        exact ⟨rfl, rfl, rfl, rfl, rfl, Or.inl rfl⟩
      case isTrue hours =>
        cases hq : B.hasQuadY s.pubnonceSum with
        | true =>
          simp only [hq, Bool.not_true, Bool.false_eq_true, ite_false] at hres
          cases hcs : computeSighash B
              (computePrehash B s.pubkeys (B.xCoord s.pubnonceSum) msg32) i with
          | none =>
            rw [hcs] at hres
            injection hres with h1 h2
            subst h2
            exact ⟨rfl, rfl, rfl, rfl, rfl, Or.inl rfl⟩
          | some e =>
            rw [hcs] at hres
            cases hov : (scalarSetB32 sk32).2 with
            | true =>
              rw [hov] at hres
              simp only [eq_self_iff_true, ite_true] at hres
              injection hres with h1 h2
              subst h2
              exact ⟨rfl, rfl, rfl, rfl, rfl, Or.inl rfl⟩
            | false =>
              rw [hov] at hres
              simp only [Bool.false_eq_true, ite_false] at hres
              injection hres with h1 h2
              exact absurd h1 (by simp)
        | false =>
          simp only [hq, Bool.not_false, ite_true] at hres
          cases hcs : computeSighash B
              (computePrehash B s.pubkeys (B.xCoord (- s.pubnonceSum)) msg32) i with
          | none =>
            rw [hcs] at hres
            injection hres with h1 h2
            subst h2
            exact ⟨rfl, rfl, rfl, rfl, rfl, Or.inr ⟨rfl, rfl⟩⟩
          | some e =>
            rw [hcs] at hres
            cases hov : (scalarSetB32 sk32).2 with
            | true =>
              rw [hov] at hres
              simp only [eq_self_iff_true, ite_true] at hres
              injection hres with h1 h2
              subst h2
              exact ⟨rfl, rfl, rfl, rfl, rfl, Or.inr ⟨rfl, rfl⟩⟩
            | false =>
              rw [hov] at hres
              simp only [Bool.false_eq_true, ite_false] at hres
              injection hres with h1 h2
              exact absurd h1 (by simp)

lemma partialSign_none_of_unknown (B : Backend) (s : Session) (msg32 sk32 : List Nat)
    (i j : Nat) (hj : j < s.pubkeys.length) (hu : s.progress j = NonceProgress.unknown) :
    (partialSign B s msg32 sk32 i).1 = none := by
  unfold partialSign
  by_cases hi : i < s.pubkeys.length
  · have hallf : ¬ ((List.range s.pubkeys.length).all
        fun j => decide (s.progress j ≠ NonceProgress.unknown)) = true := by
      intro hall
      have := List.all_eq_true.mp hall j (List.mem_range.mpr hj)
      exact absurd hu (of_decide_eq_true this)
    rw [if_pos hi, if_neg hallf]
  · rw [if_neg hi]

lemma partialSign_none_of_not_ours (B : Backend) (s : Session) (msg32 sk32 : List Nat)
    (i : Nat) (h : s.progress i ≠ NonceProgress.ours) :
    (partialSign B s msg32 sk32 i).1 = none := by
  unfold partialSign
  by_cases hi : i < s.pubkeys.length
  · by_cases hall :
      ((List.range s.pubkeys.length).all fun j => decide (s.progress j ≠ NonceProgress.unknown)) = true
    · rw [if_pos hi, if_pos hall, if_neg h]
    · rw [if_pos hi, if_neg hall]
  · rw [if_neg hi]

lemma partialSign_progress (B : Backend) (s : Session) (msg32 sk32 : List Nat)
    (i j : Nat) :
    (partialSign B s msg32 sk32 i).2.progress j = s.progress j ∨
      (j = i ∧ s.progress i = NonceProgress.ours ∧
        (partialSign B s msg32 sk32 i).2.progress j = NonceProgress.signed) := by
  cases hr : (partialSign B s msg32 sk32 i).1 with
  | none =>
    left
    rw [(partialSign_fail B s msg32 sk32 i hr).2.2.2.2.1]
  | some pb =>
    have hres : partialSign B s msg32 sk32 i = (some pb, (partialSign B s msg32 sk32 i).2) := by
      rw [← hr]
    obtain ⟨-, -, hours, e, -, -, -, -, -, -, -, hsigned, -, hoth⟩ :=
      partialSign_some B s msg32 sk32 i pb _ hres
    by_cases hj : j = i
    · right
      exact ⟨hj, hours, hj ▸ hsigned⟩
    · left
      exact (hoth j hj).1

lemma combineSignatures_sess (B : Backend) (s : Session) (ps : List (List Nat)) :
    (combineSignatures B s ps).2.pubkeys = s.pubkeys ∧
    (combineSignatures B s ps).2.progress = s.progress ∧
    (combineSignatures B s ps).2.secnonce = s.secnonce ∧
    (combineSignatures B s ps).2.rngStream = s.rngStream ∧
    (combineSignatures B s ps).2.rngPos = s.rngPos := by
  unfold combineSignatures
  split
  · split
    · split
      · exact ⟨rfl, rfl, rfl, rfl, rfl⟩
      · exact ⟨rfl, rfl, rfl, rfl, rfl⟩
    · exact ⟨rfl, rfl, rfl, rfl, rfl⟩
  · exact ⟨rfl, rfl, rfl, rfl, rfl⟩

lemma applyOp_signed (B : Backend) (s : Session) (i : Nat) (op : AggOp)
    (h : s.progress i = NonceProgress.signed) :
    (applyOp B s op).progress i = NonceProgress.signed := by
  cases op with
  | genNonce fuel idx =>
    simp only [applyOp]
    cases hg : generateNonce B fuel s idx with
    | none => simpa using h
    | some s2 =>
      obtain ⟨-, hu, k, pos2, -, -, -, -, -, -, hpi, -, hoth⟩ :=
        generateNonce_some B fuel s idx s2 hg
      simp only [Option.getD_some]
      by_cases hj : i = idx
      · exact absurd (hu.symm.trans (hj ▸ h)) (by decide)
      · rw [(hoth i hj).1]
        exact h
  | pSign m k idx =>
    simp only [applyOp]
    rcases partialSign_progress B s m k idx i with hsame | ⟨hj, hours, hnew⟩
    · rw [hsame]
      exact h
    · exact hnew
  | combineOp ps =>
    simp only [applyOp]
    rw [congrFun (combineSignatures_sess B s ps).2.1 i]
    exact h

lemma applyOps_signed (B : Backend) (i : Nat) :
    ∀ (ops : List AggOp) (s : Session), s.progress i = NonceProgress.signed →
      (ops.foldl (applyOp B) s).progress i = NonceProgress.signed := by
  intro ops
  induction ops with
  | nil => intro s h; exact h
  | cons op t ih =>
    intro s h
    exact ih _ (applyOp_signed B s i op h)

/-! ### The protocol runs -/

lemma genAllFrom_spec (B : Backend) (fuel : Nat) :
    ∀ (m i : Nat) (s s2 : Session), genAllFrom B fuel i m s = some s2 →
      s2.pubkeys = s.pubkeys ∧ s2.rngStream = s.rngStream ∧
      (∀ j, j < i ∨ i + m ≤ j →
        s2.progress j = s.progress j ∧ s2.secnonce j = s.secnonce j) ∧
      (∀ j, i ≤ j → j < i + m →
        s2.progress j = NonceProgress.ours ∧ s2.secnonce j ≠ 0 ∧
        B.hasQuadY (s2.secnonce j * pointG) = true) ∧
      s2.pubnonceSum = s.pubnonceSum +
        ((List.range m).map fun t => s2.secnonce (i + t) * pointG).sum := by
  intro m
  induction m with
  | zero =>
    intro i s s2 h
    simp only [genAllFrom, Option.some.injEq] at h
    subst h
    exact ⟨rfl, rfl, fun j _ => ⟨rfl, rfl⟩, fun j h1 h2 => absurd h2 (by omega), by simp⟩
  | succ m ih =>
    intro i s s2 h
    simp only [genAllFrom] at h
    cases hg : generateNonce B fuel s i with
    | none => rw [hg] at h; simp at h
    | some s1 =>
      rw [hg] at h
      simp only [Option.some_bind] at h
      obtain ⟨hi, hu, k, pos2, hk0, hq, hpk1, hstr1, hpos1, hsum1, hpi1, hsi1, hoth1⟩ :=
        generateNonce_some B fuel s i s1 hg
      obtain ⟨hpk2, hstr2, houter2, hinner2, hsum2⟩ := ih (i + 1) s1 s2 h
      have hs2i : s2.secnonce i = k := ((houter2 i (Or.inl (by omega))).2).trans hsi1
      refine ⟨hpk2.trans hpk1, hstr2.trans hstr1, ?_, ?_, ?_⟩
      · intro j hj
        have hjne : j ≠ i := by omega
        have h2 := houter2 j (by omega)
        exact ⟨h2.1.trans (hoth1 j hjne).1, h2.2.trans (hoth1 j hjne).2⟩
      · intro j h1 h2
        by_cases hji : j = i
        · subst hji
          have h3 := houter2 j (Or.inl (by omega))
          refine ⟨h3.1.trans hpi1, ?_, ?_⟩
          · rw [h3.2, hsi1]
            exact hk0
          · rw [h3.2, hsi1]
            exact hq
        · exact hinner2 j (by omega) (by omega)
      · rw [hsum2, hsum1, List.range_succ_eq_map, List.map_cons, List.sum_cons,
          List.map_map]
        have hcomp : ((fun t => s2.secnonce (i + t) * pointG) ∘ Nat.succ)
            = fun t => s2.secnonce (i + 1 + t) * pointG := by
          funext t
          simp only [Function.comp_apply]
          rw [show i + Nat.succ t = i + 1 + t from by omega]
        rw [hcomp]
        simp only [Nat.add_zero, hs2i]
        ring

lemma prehashOf_congr (B : Backend) {s1 s : Session} (msg32 : List Nat)
    (hpk : s1.pubkeys = s.pubkeys) (hsum : s1.pubnonceSum = s.pubnonceSum) :
    prehashOf B s1 msg32 = prehashOf B s msg32 := by
  unfold prehashOf psRx
  rw [hpk, hsum]

lemma psEps_congr (B : Backend) {s1 s : Session}
    (hsum : s1.pubnonceSum = s.pubnonceSum) : psEps B s1 = psEps B s := by
  unfold psEps
  rw [hsum]

set_option maxHeartbeats 1000000 in
lemma signAllFrom_spec (B : Backend) (msg32 : List Nat) (skb : Nat → List Nat) :
    ∀ (m i : Nat) (s : Session) (out : List (List Nat) × Session),
      signAllFrom B msg32 skb i m s = some out →
      out.2.pubkeys = s.pubkeys ∧ out.2.pubnonceSum = s.pubnonceSum ∧
      (∀ t, t < m → (computeSighash B (prehashOf B s msg32) (i + t)).isSome = true) ∧
      out.1 = (List.range m).map fun t =>
        scalarBytes ((scalarSetB32 (skb (i + t))).1 *
          (computeSighash B (prehashOf B s msg32) (i + t)).getD 0 +
          psEps B s * s.secnonce (i + t)) := by
  intro m
  induction m with
  | zero =>
    intro i s out h
    simp only [signAllFrom, Option.some.injEq] at h
    subst h
    exact ⟨rfl, rfl, fun t ht => absurd ht (by omega), by simp⟩
  | succ m ih =>
    intro i s out h
    simp only [signAllFrom] at h
    rcases hr : partialSign B s msg32 (skb i) i with ⟨r1, s1⟩
    rw [hr] at h
    cases r1 with
    | none => simp at h
    | some pb =>
      simp only [Option.map_eq_some'] at h
      obtain ⟨r, hr2, hout⟩ := h
      obtain ⟨-, -, -, e, hcs, -, hpb, hpk1, hsum1, -, -, -, -, hoth1⟩ :=
        partialSign_some B s msg32 (skb i) i pb s1 hr
      obtain ⟨hpk2, hsum2, hsome2, hlist2⟩ := ih (i + 1) s1 r hr2
      have hpre : prehashOf B s1 msg32 = prehashOf B s msg32 :=
        prehashOf_congr B msg32 hpk1 hsum1
      have heps : psEps B s1 = psEps B s := psEps_congr B hsum1
      subst hout
      refine ⟨hpk2.trans hpk1, hsum2.trans hsum1, ?_, ?_⟩
      · intro t ht
        cases t with
        | zero =>
          rw [Nat.add_zero, hcs]
          rfl
        | succ t2 =>
          have := hsome2 t2 (by omega)
          rw [hpre] at this
          rw [show i + Nat.succ t2 = i + 1 + t2 from by omega]
          exact this
      · show pb :: r.1 = _
        rw [List.range_succ_eq_map, List.map_cons, List.map_map, hlist2,
          List.cons_eq_cons]
        constructor
        · rw [hpb, Nat.add_zero, hcs]
          rfl
        · apply List.map_congr_left
          intro t ht
          simp only [Function.comp_apply]
          rw [hpre, heps, (hoth1 (i + 1 + t) (by omega)).2,
            show i + Nat.succ t = i + 1 + t from by omega]

lemma combineSignatures_some (B : Backend) (s : Session) (vals : List Scalar)
    (hlen : vals.length = s.pubkeys.length) :
    (combineSignatures B s (vals.map scalarBytes)).1 =
      some (scalarBytes vals.sum ++ feBytes (psRx B s)) := by
  have hall : ((vals.map scalarBytes).all fun pb => ! (scalarSetB32 pb).2) = true := by
    rw [List.all_eq_true]
    intro pb hpb
    obtain ⟨v, hv, hpbe⟩ := List.mem_map.mp hpb
    rw [← hpbe, scalarSetB32_scalarBytes]
    rfl
  have hmap : (vals.map scalarBytes).map (fun pb => (scalarSetB32 pb).1) = vals := by
    rw [List.map_map]
    have hfun : ((fun pb => (scalarSetB32 pb).1) ∘ scalarBytes) = id := by
      funext v
      simp only [Function.comp_apply, id_eq, scalarSetB32_scalarBytes]
    rw [hfun, List.map_id]
  unfold combineSignatures
  rw [if_pos (by rw [List.length_map]; exact hlen), if_pos hall]
  by_cases hq : B.hasQuadY s.pubnonceSum
  · simp [hq, hmap, psRx]
  · simp [hq, hmap, psRx]

lemma aggsigVerify_char (B : Backend) (sig64 msg32 : List Nat) (pks : List Point) :
    aggsigVerify B sig64 msg32 pks =
      (decide (pks ≠ []) &&
        ! (scalarSetB32 (sig64.take 32)).2 &&
        (feSetB32 (sig64.drop 32)).isSome &&
        ((List.range pks.length).all fun i =>
          (computeSighash B (verifyPrehash B sig64 msg32 pks) i).isSome) &&
        decide (B.xCoord (verifyQ B sig64 msg32 pks) = (feSetB32 (sig64.drop 32)).getD 0) &&
        B.hasQuadY (verifyQ B sig64 msg32 pks)) := by
  unfold aggsigVerify verifyQ verifyPrehash
  by_cases hemp : pks.length = 0
  · rw [if_pos hemp]
    have hnil : pks = [] := List.length_eq_zero.mp hemp
    simp [hnil]
  · rw [if_neg hemp]
    dsimp only
    have hne : decide (pks ≠ []) = true := by
      rw [decide_eq_true_eq]
      intro hnil
      exact hemp (by rw [hnil]; rfl)
    rw [hne]
    cases hov : (scalarSetB32 (sig64.take 32)).2 with
    | true => simp
    | false =>
      simp only [Bool.false_eq_true, ite_false, Bool.not_false, Bool.true_and]
      cases hfe : feSetB32 (sig64.drop 32) with
      | none => simp
      | some rx =>
        simp only [Option.isSome_some, Option.getD_some, Bool.true_and]
        rw [ecmultMultiVar_char]
        have hcbSome : ∀ i,
            ((computeSighash B (computePrehash B pks rx msg32) i).map
              (fun e => (-e, pks.getD i 0))).isSome =
            (computeSighash B (computePrehash B pks rx msg32) i).isSome := by
          intro i
          cases computeSighash B (computePrehash B pks rx msg32) i <;> rfl
        by_cases hall : ((List.range pks.length).all fun i =>
            (computeSighash B (computePrehash B pks rx msg32) i).isSome) = true
        · have hall2 : ((List.range pks.length).all fun i =>
              ((computeSighash B (computePrehash B pks rx msg32) i).map
                (fun e => (-e, pks.getD i 0))).isSome) = true := by
            rw [List.all_eq_true] at hall ⊢
            intro i hi
            rw [hcbSome]
            exact hall i hi
          rw [if_pos hall2, hall, Bool.true_and]
          have hsum : ((List.range pks.length).map fun i =>
              (((computeSighash B (computePrehash B pks rx msg32) i).map
                (fun e => (-e, pks.getD i 0))).getD (0, 0)).1 *
              (((computeSighash B (computePrehash B pks rx msg32) i).map
                (fun e => (-e, pks.getD i 0))).getD (0, 0)).2) =
              (List.range pks.length).map fun i =>
                - ((computeSighash B (computePrehash B pks rx msg32) i).getD 0 *
                  pks.getD i 0) := by
            apply List.map_congr_left
            intro i hi
            have hs := List.all_eq_true.mp hall i hi
            cases hcsi : computeSighash B (computePrehash B pks rx msg32) i with
            | none => rw [hcsi] at hs; simp at hs
            | some e =>
              simp [hcsi, neg_mul]
          rw [hsum, scalarSum_map_neg]
          rw [← sub_eq_add_neg]
        · have hall2 : ¬ ((List.range pks.length).all fun i =>
              ((computeSighash B (computePrehash B pks rx msg32) i).map
                (fun e => (-e, pks.getD i 0))).isSome) = true := by
            intro hx
            apply hall
            rw [List.all_eq_true] at hx ⊢
            intro i hi
            rw [← hcbSome]
            exact hx i hi
          rw [if_neg hall2]
          have hallf : ((List.range pks.length).all fun i =>
              (computeSighash B (computePrehash B pks rx msg32) i).isSome) = false :=
            Bool.eq_false_iff.mpr hall
          rw [hallf]
          simp

lemma psRx_congr (B : Backend) {s1 s : Session}
    (hsum : s1.pubnonceSum = s.pubnonceSum) : psRx B s1 = psRx B s := by
  unfold psRx
  rw [hsum]

lemma getD_map_pointG (sks : List Scalar) (i : Nat) :
    (sks.map fun a => a * pointG).getD i 0 = sks.getD i 0 * pointG := by
  rw [List.getD_eq_getElem?_getD, List.getD_eq_getElem?_getD, List.getElem?_map]
  cases sks[i]? with
  | none => simp [pointG]
  | some a => simp

set_option maxHeartbeats 1000000 in
lemma runAggProtocol_verifies (B : Backend) (sks : List Scalar) (seed msg32 : List Nat)
    (fuel : Nat) (s1 : Session) (out : List (List Nat) × Session)
    (hne : sks ≠ [])
    (hgen : genAllFrom B fuel 0 (sks.map fun a => a * pointG).length
      (contextCreate B (sks.map fun a => a * pointG) seed) = some s1)
    (hsign : signAllFrom B msg32 (fun i => scalarBytes (sks.getD i 0)) 0
      (sks.map fun a => a * pointG).length s1 = some out)
    (hRne : s1.pubnonceSum ≠ 0) :
    runAggProtocol B sks seed msg32 fuel = some true := by
  obtain ⟨ps, s2⟩ := out
  obtain ⟨hpk1, -, -, -, hsum1⟩ :=
    genAllFrom_spec B fuel (sks.map fun a => a * pointG).length 0
      (contextCreate B (sks.map fun a => a * pointG) seed) s1 hgen
  obtain ⟨hpk2, hsum2, hsome, hlist⟩ :=
    signAllFrom_spec B msg32 (fun i => scalarBytes (sks.getD i 0))
      (sks.map fun a => a * pointG).length 0 s1 (ps, s2) hsign
  simp only [Nat.zero_add] at hsum1 hsome hlist
  have hpk1' : s1.pubkeys = sks.map fun a => a * pointG := hpk1
  have hpk2' : s2.pubkeys = s1.pubkeys := hpk2
  have hsum2' : s2.pubnonceSum = s1.pubnonceSum := hsum2
  have hsum1' : s1.pubnonceSum =
      ((List.range (sks.map fun a => a * pointG).length).map s1.secnonce).sum := by
    rw [hsum1]
    rw [show (contextCreate B (sks.map fun a => a * pointG) seed).pubnonceSum = 0 from rfl,
      zero_add]
    congr 1
    apply List.map_congr_left
    intro t ht
    rw [pointG, mul_one]
  -- the list of partial-signature scalars
  have hlist2 : ps = (List.range (sks.map fun a => a * pointG).length).map
      (fun t => scalarBytes (sks.getD t 0 *
        (computeSighash B (prehashOf B s1 msg32) t).getD 0 +
        psEps B s1 * s1.secnonce t)) := by
    rw [hlist]
    apply List.map_congr_left
    intro t ht
    rw [scalarSetB32_scalarBytes]
  have hps : ps = ((List.range (sks.map fun a => a * pointG).length).map
      (fun t => sks.getD t 0 * (computeSighash B (prehashOf B s1 msg32) t).getD 0 +
        psEps B s1 * s1.secnonce t)).map scalarBytes := by
    rw [hlist2, List.map_map]
    rfl
  have hlen2 : ((List.range (sks.map fun a => a * pointG).length).map
      (fun t => sks.getD t 0 * (computeSighash B (prehashOf B s1 msg32) t).getD 0 +
        psEps B s1 * s1.secnonce t)).length = s2.pubkeys.length := by
    rw [List.length_map, List.length_range, hpk2', hpk1']
  -- unfold the protocol run
  unfold runAggProtocol
  dsimp only
  rw [hgen]
  simp only [Option.some_bind]
  rw [hsign]
  simp only [Option.some_bind]
  rcases hc : combineSignatures B s2 ps with ⟨c1, c2⟩
  have hc1 : c1 = some (scalarBytes (((List.range (sks.map fun a => a * pointG).length).map
      (fun t => sks.getD t 0 * (computeSighash B (prehashOf B s1 msg32) t).getD 0 +
        psEps B s1 * s1.secnonce t)).sum) ++ feBytes (psRx B s2)) := by
    have h1 : (combineSignatures B s2 ps).1 = c1 := by rw [hc]
    rw [← h1, hps]
    exact combineSignatures_some B s2 _ hlen2
  subst hc1
  dsimp only
  -- it remains to show that the aggregate verifier accepts the signature
  rw [Option.some_inj]
  rw [psRx_congr B hsum2']
  rw [aggsigVerify_char]
  unfold verifyQ
  unfold verifyPrehash
  rw [List.take_left' (scalarBytes_length _), List.drop_left' (scalarBytes_length _),
    scalarSetB32_scalarBytes, feSetB32_feBytes]
  have hpkne : (sks.map fun a => a * pointG) ≠ [] := by
    intro h0
    exact hne (List.map_eq_nil_iff.mp h0)
  have hPH : computePrehash B (sks.map fun a => a * pointG) (psRx B s1) msg32 =
      prehashOf B s1 msg32 := by
    unfold prehashOf
    rw [hpk1']
  simp only [Option.isSome_some, Option.getD_some, Bool.not_false, decide_eq_true_eq]
  simp only [hPH]
  have hall : ((List.range (sks.map fun a => a * pointG).length).all
      fun i => (computeSighash B (prehashOf B s1 msg32) i).isSome) = true := by
    rw [List.all_eq_true]
    intro i hi
    exact hsome i (List.mem_range.mp hi)
  rw [hall]
  -- the verification point equals the (possibly negated) combined nonce
  have hQsum : ((List.range (sks.map fun a => a * pointG).length).map
      fun i => (computeSighash B (prehashOf B s1 msg32) i).getD 0 *
        (sks.map fun a => a * pointG).getD i 0).sum =
      ((List.range (sks.map fun a => a * pointG).length).map
        fun i => sks.getD i 0 * (computeSighash B (prehashOf B s1 msg32) i).getD 0).sum := by
    congr 1
    apply List.map_congr_left
    intro i hi
    rw [getD_map_pointG, pointG, mul_one, mul_comm]
  have hSsum : ((List.range (sks.map fun a => a * pointG).length).map
      (fun t => sks.getD t 0 * (computeSighash B (prehashOf B s1 msg32) t).getD 0 +
        psEps B s1 * s1.secnonce t)).sum =
      ((List.range (sks.map fun a => a * pointG).length).map
        fun t => sks.getD t 0 * (computeSighash B (prehashOf B s1 msg32) t).getD 0).sum +
      psEps B s1 * s1.pubnonceSum := by
    rw [scalarSum_map_add, scalarSum_map_mul, ← hsum1']
  have hQ : ((List.range (sks.map fun a => a * pointG).length).map
      (fun t => sks.getD t 0 * (computeSighash B (prehashOf B s1 msg32) t).getD 0 +
        psEps B s1 * s1.secnonce t)).sum * pointG -
      ((List.range (sks.map fun a => a * pointG).length).map
        fun i => (computeSighash B (prehashOf B s1 msg32) i).getD 0 *
          (sks.map fun a => a * pointG).getD i 0).sum =
      psEps B s1 * s1.pubnonceSum := by
    rw [hQsum, hSsum, pointG, mul_one]
    ring
  simp only [hQ]
  -- split on the sign of the combined nonce
  cases hq : B.hasQuadY s1.pubnonceSum with
  | true =>
    have heps : psEps B s1 = 1 := by
      unfold psEps
      rw [hq]
      rfl
    have hrx : psRx B s1 = B.xCoord s1.pubnonceSum := by
      unfold psRx
      rw [hq]
      rfl
    simp only [heps, hrx, one_mul]
    simp [hpkne, hq]
  | false =>
    have heps : psEps B s1 = -1 := by
      unfold psEps
      rw [hq]
      rfl
    have hrx : psRx B s1 = B.xCoord (- s1.pubnonceSum) := by
      unfold psRx
      rw [hq]
      rfl
    simp only [heps, hrx, neg_one_mul]
    have hflip : B.hasQuadY (- s1.pubnonceSum) = true := by
      rw [B.hasQuadY_neg _ hRne, hq]
      rfl
    simp [hpkne, hflip]

lemma signSingleNonce_spec (B : Backend) (snb : Option (List Nat)) (seed : List Nat)
    (fuel : Nat) (k : Scalar) (K : Point)
    (h : signSingleNonce B snb seed fuel = some (k, K)) :
    K = k * pointG ∧ (K ≠ 0 → B.hasQuadY K = true) ∧ (snb = none → k ≠ 0) := by
  unfold signSingleNonce at h
  cases snb with
  | none =>
    dsimp only at h
    cases hg : genNonceSingle B (B.rfc6979 seed) fuel 0 with
    | none => rw [hg] at h; simp at h
    | some x =>
      obtain ⟨k0, K0, p0⟩ := x
      rw [hg] at h
      simp only [Option.map_some', Option.some.injEq, Prod.mk.injEq] at h
      obtain ⟨hk, hK⟩ := h
      subst hk
      subst hK
      obtain ⟨h0, hKG, hq⟩ := genNonceSingle_spec B _ fuel 0 k0 K0 p0 hg
      exact ⟨hKG, fun _ => hq, fun _ => h0⟩
  | some nb =>
    dsimp only at h
    by_cases hq : B.hasQuadY ((scalarSetB32 nb).1 * pointG)
    · rw [if_pos hq] at h
      simp only [Option.some.injEq, Prod.mk.injEq] at h
      obtain ⟨hk, hK⟩ := h
      subst hk
      subst hK
      exact ⟨rfl, fun _ => hq, fun hc => absurd hc (by simp)⟩
    · rw [if_neg hq] at h
      simp only [Option.some.injEq, Prod.mk.injEq] at h
      obtain ⟨hk, hK⟩ := h
      subst hk
      subst hK
      refine ⟨(neg_mul _ _).symm, ?_, fun hc => absurd hc (by simp)⟩
      intro hne
      have hbase : (scalarSetB32 nb).1 * pointG ≠ 0 := fun h0 => hne (by rw [h0, neg_zero])
      rw [B.hasQuadY_neg _ hbase, Bool.eq_false_iff.mpr hq]
      rfl

/-! ### The claims -/

/-- C6: whenever `secp256k1_aggsig_generate_nonce_single` returns success, it
returns a pair `(k, K)` with `K = k·G`, `k` not the zero scalar, and `K.y` a
quadratic residue — for every RNG state (every byte stream). -/
theorem claim_C6 (B : Backend) (stream : Nat → List Nat) (fuel pos : Nat)
    (k : Scalar) (K : Point) (pos2 : Nat)
    (h : genNonceSingle B stream fuel pos = some (k, K, pos2)) :
    k ≠ 0 ∧ K = k * pointG ∧ B.hasQuadY K = true :=
  genNonceSingle_spec B stream fuel pos k K pos2 h

/-- C6 witness: a concrete RNG stream whose first draw is the scalar 1. -/
theorem claim_C6_witness :
    (1 : Scalar) ≠ 0 ∧ (1 : Point) = 1 * pointG ∧ toyBackend.hasQuadY 1 = true :=
  claim_C6 toyBackend (fun _ => natToBytesBE 32 1) 1 0 1 1 1 (by decide)

/-- C8: the per-index challenge of `secp256k1_compute_sighash`, when it is
produced, equals SHA256(varint7(i) ‖ prehash) interpreted big-endian mod n,
where varint7 emits the successive 7-bit little-endian limbs of i (exactly
`Nat.digits 128 i`), emitting no bytes at all when i = 0 — so in particular
e_0 is the reduced hash of the bare prehash. -/
theorem claim_C8 (B : Backend) (ph : List Nat) (i : Nat) :
    (∀ e : Scalar, computeSighash B ph i = some e →
      e = ((fromBytesBE (B.hash (Nat.digits 128 i ++ ph)) : Nat) : Scalar)) ∧
    varint7 i = Nat.digits 128 i ∧
    computeSighash B ph 0 =
      (if (scalarSetB32 (B.hash ph)).2 then none
       else some (scalarSetB32 (B.hash ph)).1) := by
  refine ⟨?_, varint7_eq_digits i, rfl⟩
  intro e he
  unfold computeSighash at he
  dsimp only at he
  split at he
  · exact absurd he (by simp)
  · injection he with he1
    rw [← he1, varint7_eq_digits]
    rfl

/-- C8 witness: the index-0 challenge over an all-zero prehash under the
concrete backend. -/
theorem claim_C8_witness :
    ((32 * 2 ^ 248 : Nat) : Scalar) =
      ((fromBytesBE (toyBackend.hash (Nat.digits 128 0 ++ zeros32)) : Nat) : Scalar) :=
  (claim_C8 toyBackend zeros32 0).1 ((32 * 2 ^ 248 : Nat) : Scalar) (by decide)

/-- C2: the aggregate verifier rejects when N = 0, when the first 32 bytes
parse as a scalar ≥ n, or when the last 32 bytes are ≥ p (and, implicit in
the callback abort, when some per-index sighash overflows); otherwise it
accepts the signature against the pubkey list and message exactly when the
point Q = s·G − Σ e_i·P_i satisfies Q.x = R_x as field elements and Q.y is a
quadratic residue mod p. -/
theorem claim_C2 (B : Backend) (sig64 msg32 : List Nat) (pks : List Point) :
    aggsigVerify B sig64 msg32 pks =
      (decide (pks ≠ []) &&
        ! (scalarSetB32 (sig64.take 32)).2 &&
        (feSetB32 (sig64.drop 32)).isSome &&
        ((List.range pks.length).all fun i =>
          (computeSighash B (verifyPrehash B sig64 msg32 pks) i).isSome) &&
        decide (B.xCoord (verifyQ B sig64 msg32 pks) = (feSetB32 (sig64.drop 32)).getD 0) &&
        B.hasQuadY (verifyQ B sig64 msg32 pks)) :=
  aggsigVerify_char B sig64 msg32 pks

/-- C5: the nonce lifecycle is enforced — generating a nonce on a slot that
is not `unknown` fails, partial signing fails while any slot is `unknown` or
when the target slot is not `ours`, and once a slot is `signed` it stays
`signed` under every further sequence of operations, so its secret nonce can
never participate in another partial signature. -/
theorem claim_C5 (B : Backend) (fuel : Nat) (s : Session) (i : Nat)
    (msg32 sk32 : List Nat) (ops : List AggOp) :
    (s.progress i ≠ NonceProgress.unknown → generateNonce B fuel s i = none) ∧
    ((∃ j, j < s.pubkeys.length ∧ s.progress j = NonceProgress.unknown) →
      (partialSign B s msg32 sk32 i).1 = none) ∧
    (s.progress i ≠ NonceProgress.ours → (partialSign B s msg32 sk32 i).1 = none) ∧
    (s.progress i = NonceProgress.signed →
      (ops.foldl (applyOp B) s).progress i = NonceProgress.signed) ∧
    (s.progress i = NonceProgress.signed →
      (partialSign B (ops.foldl (applyOp B) s) msg32 sk32 i).1 = none) := by
  refine ⟨generateNonce_none_of_progress B fuel s i, ?_,
    partialSign_none_of_not_ours B s msg32 sk32 i, applyOps_signed B i ops s, ?_⟩
  · rintro ⟨j, hj, hu⟩
    exact partialSign_none_of_unknown B s msg32 sk32 i j hj hu
  · intro hsg
    apply partialSign_none_of_not_ours
    rw [applyOps_signed B i ops s hsg]
    decide

/-- C5 witness: a concrete session whose slot 0 is `signed` and slot 1 is
`unknown`, with one further `generate_nonce` operation applied. -/
theorem claim_C5_witness :
    generateNonce toyBackend 1 sessSigned 0 = none ∧
    (partialSign toyBackend sessSigned zeros32 (scalarBytes 1) 0).1 = none ∧
    (partialSign toyBackend sessSigned zeros32 (scalarBytes 1) 0).1 = none ∧
    ([AggOp.genNonce 1 1].foldl (applyOp toyBackend) sessSigned).progress 0 =
      NonceProgress.signed ∧
    (partialSign toyBackend ([AggOp.genNonce 1 1].foldl (applyOp toyBackend) sessSigned)
      zeros32 (scalarBytes 1) 0).1 = none := by
  obtain ⟨h1, h2, h3, h4, h5⟩ :=
    claim_C5 toyBackend 1 sessSigned 0 zeros32 (scalarBytes 1) [AggOp.genNonce 1 1]
  exact ⟨h1 (by decide), h2 ⟨1, by decide, by decide⟩, h3 (by decide),
    h4 (by decide), h5 (by decide)⟩

/-- C4 (amended): whenever `secp256k1_aggsig_partial_sign` fails, the
progress states, the combined public nonce, the public keys and the RNG are
exactly as before the call, and the stored secret nonces are unchanged
**except** that when the combined nonce's y is not a quadratic residue and
the failure is a sighash or secret-key overflow, the slot's secret nonce has
already been negated in place (the negation of source lines 291–295 happens
before those overflow checks). -/
theorem claim_C4 (B : Backend) (s : Session) (msg32 sk32 : List Nat) (i : Nat)
    (h : (partialSign B s msg32 sk32 i).1 = none) :
    (partialSign B s msg32 sk32 i).2.pubkeys = s.pubkeys ∧
    (partialSign B s msg32 sk32 i).2.pubnonceSum = s.pubnonceSum ∧
    (partialSign B s msg32 sk32 i).2.rngStream = s.rngStream ∧
    (partialSign B s msg32 sk32 i).2.rngPos = s.rngPos ∧
    (partialSign B s msg32 sk32 i).2.progress = s.progress ∧
    ((partialSign B s msg32 sk32 i).2.secnonce = s.secnonce ∨
      (B.hasQuadY s.pubnonceSum = false ∧
        (partialSign B s msg32 sk32 i).2.secnonce =
          fun j => if j = i then - s.secnonce j else s.secnonce j)) :=
  partialSign_fail B s msg32 sk32 i h

/-- C4 witness: a failing `partial_sign` on a fresh (all-`unknown`) session
leaves every component unchanged. -/
theorem claim_C4_witness :
    (partialSign toyBackend sessFresh zeros32 (scalarBytes 1) 0).2.pubkeys =
      sessFresh.pubkeys ∧
    (partialSign toyBackend sessFresh zeros32 (scalarBytes 1) 0).2.pubnonceSum =
      sessFresh.pubnonceSum ∧
    (partialSign toyBackend sessFresh zeros32 (scalarBytes 1) 0).2.rngStream =
      sessFresh.rngStream ∧
    (partialSign toyBackend sessFresh zeros32 (scalarBytes 1) 0).2.rngPos =
      sessFresh.rngPos ∧
    (partialSign toyBackend sessFresh zeros32 (scalarBytes 1) 0).2.progress =
      sessFresh.progress ∧
    ((partialSign toyBackend sessFresh zeros32 (scalarBytes 1) 0).2.secnonce =
        sessFresh.secnonce ∨
      (toyBackend.hasQuadY sessFresh.pubnonceSum = false ∧
        (partialSign toyBackend sessFresh zeros32 (scalarBytes 1) 0).2.secnonce =
          fun j => if j = 0 then - sessFresh.secnonce j else sessFresh.secnonce j)) :=
  claim_C4 toyBackend sessFresh zeros32 (scalarBytes 1) 0 (by decide)

/-- C4 counterexample: on a session whose combined nonce does not have
quadratic-residue y, a `partial_sign` call that fails on secret-key overflow
(secret key 2^256 − 1 ≥ n) leaves the slot's secret nonce negated — the
session is NOT unchanged as the claim states. -/
theorem claim_C4_counterexample :
    (partialSign toyBackend sessNegQ zeros32 bytesFF 0).1 = none ∧
    (partialSign toyBackend sessNegQ zeros32 bytesFF 0).2.secnonce 0 ≠
      sessNegQ.secnonce 0 := by
  constructor
  · decide
  · decide

/-- C10: when `secp256k1_aggsig_sign_single` is given an external 32-byte
secret nonce, the parse overflow flag is ignored — signing behaves exactly as
if the nonce bytes had been the canonical encoding of their value reduced
mod n, and the call succeeds if and only if the secret key parses without
overflow (whose overflow, by contrast, is rejected). -/
theorem claim_C10 (B : Backend) (msg32 sk32 nb : List Nat)
    (assoc : Option Point) (seed : List Nat) (fuel : Nat) :
    signSingle B msg32 sk32 (some nb) assoc seed fuel =
      signSingle B msg32 sk32 (some (scalarBytes ((fromBytesBE nb : Nat) : Scalar)))
        assoc seed fuel ∧
    (signSingle B msg32 sk32 (some nb) assoc seed fuel).isSome =
      ! (scalarSetB32 sk32).2 := by
  have hk : (scalarSetB32 (scalarBytes ((fromBytesBE nb : Nat) : Scalar))).1 =
      (scalarSetB32 nb).1 := by
    rw [scalarSetB32_scalarBytes]
    rfl
  constructor
  · unfold signSingle signSingleNonce
    dsimp only
    rw [hk]
  · unfold signSingle signSingleNonce
    dsimp only
    by_cases hq : B.hasQuadY ((scalarSetB32 nb).1 * pointG)
    · rw [if_pos hq]
      cases hov : (scalarSetB32 sk32).2 <;> simp
    · rw [if_neg hq]
      cases hov : (scalarSetB32 sk32).2 <;> simp

/-- C7 (amended): `secp256k1_aggsig_sign_single` ignores the overflow flag of
the single-signer sighash: whenever the nonce stage succeeds and the secret
key parses without overflow, signing returns success — even when the sighash
digest is ≥ n (the digest is used silently reduced mod n instead of causing
a failure). -/
theorem claim_C7 (B : Backend) (msg32 sk32 : List Nat) (snb : Option (List Nat))
    (assoc : Option Point) (seed : List Nat) (fuel : Nat)
    (hnonce : (signSingleNonce B snb seed fuel).isSome = true)
    (hsk : (scalarSetB32 sk32).2 = false) :
    (signSingle B msg32 sk32 snb assoc seed fuel).isSome = true := by
  unfold signSingle
  cases hsn : signSingleNonce B snb seed fuel with
  | none => rw [hsn] at hnonce; simp at hnonce
  | some kK =>
    obtain ⟨k0, K0⟩ := kK
    dsimp only
    rw [hsk]
    rfl

/-- C7 witness: under a backend whose hash always produces 2^256 − 1 (≥ n),
signing with external nonce 1 and secret key 1 succeeds. -/
theorem claim_C7_witness :
    (signSingle toyBackendFF zeros32 (scalarBytes 1) (some (scalarBytes 1)) none
      zeros32 1).isSome = true :=
  claim_C7 toyBackendFF zeros32 (scalarBytes 1) (some (scalarBytes 1)) none zeros32 1
    (by decide) (by decide)

/-- C7 counterexample: at this concrete input, the single-signer sighash
overflows the curve order (its overflow flag is set) yet
`secp256k1_aggsig_sign_single` returns success — refuting the claim that an
overflowing sighash makes the signing operation fail. -/
theorem claim_C7_counterexample :
    (computeSighashSingle toyBackendFF (1 : Point) zeros32).2 = true ∧
    (signSingle toyBackendFF zeros32 (scalarBytes 1) (some (scalarBytes 1)) none
      zeros32 1).isSome = true := by
  constructor
  · decide
  · decide

/-- C9 (amended): after the nonce stage of `secp256k1_aggsig_sign_single`
the nonce point has quadratic-residue y unless it is the point at infinity
(which happens exactly for an external secret nonce ≡ 0 mod n); in that
corner case the second quadratic-residue check does execute its negation,
but it negates the zero scalar and the point at infinity, so in all cases
observable behaviour is unchanged: sign_single computes the same result as
the variant with the second check removed. -/
theorem claim_C9 (B : Backend) (msg32 sk32 : List Nat) (snb : Option (List Nat))
    (assoc : Option Point) (seed : List Nat) (fuel : Nat) :
    (∀ (k : Scalar) (K : Point), signSingleNonce B snb seed fuel = some (k, K) →
      K ≠ 0 → B.hasQuadY K = true) ∧
    signSingle B msg32 sk32 snb assoc seed fuel =
      signSingleNoSecondCheck B msg32 sk32 snb assoc seed fuel := by
  constructor
  · intro k K h hKne
    exact (signSingleNonce_spec B snb seed fuel k K h).2.1 hKne
  · unfold signSingle signSingleNoSecondCheck
    cases hsn : signSingleNonce B snb seed fuel with
    | none => rfl
    | some kK =>
      obtain ⟨k0, K0⟩ := kK
      obtain ⟨hKG, hqimp, -⟩ := signSingleNonce_spec B snb seed fuel k0 K0 hsn
      by_cases hq : B.hasQuadY K0 = true
      · dsimp only
        rw [hq]
        rfl
      · have hK0 : K0 = 0 := by
          by_contra hne
          exact hq (hqimp hne)
        have hk0 : k0 = 0 := by
          rw [hK0, pointG] at hKG
          rw [mul_one] at hKG
          exact hKG.symm
        subst hk0
        subst hK0
        have hqf : B.hasQuadY (0 : Point) = false := Bool.eq_false_iff.mpr hq
        dsimp only
        rw [hqf]
        simp [neg_zero]

/-- C9 counterexample: with the external secret nonce 0 (32 zero bytes) the
point produced by the nonce stage is the point at infinity, whose y is not a
quadratic residue — so at the second check the nonce point does NOT already
have quadratic-residue y, and the negation branch executes. -/
theorem claim_C9_counterexample :
    (signSingleNonce toyBackend (some zeros32) zeros32 1).map
      (fun kK => toyBackend.hasQuadY kK.2) = some false := by
  decide

/-- C9 witness: at a nonzero external nonce the stage point has
quadratic-residue y, and sign_single agrees with the second-check-free
variant. -/
theorem claim_C9_witness :
    toyBackend.hasQuadY 1 = true ∧
    signSingle toyBackend zeros32 (scalarBytes 1) (some (scalarBytes 1)) none
        zeros32 1 =
      signSingleNoSecondCheck toyBackend zeros32 (scalarBytes 1) (some (scalarBytes 1))
        none zeros32 1 := by
  obtain ⟨h1, h2⟩ :=
    claim_C9 toyBackend zeros32 (scalarBytes 1) (some (scalarBytes 1)) none zeros32 1
  exact ⟨h1 1 1 (by decide) (by decide), h2⟩

set_option maxHeartbeats 1000000 in
/-- C3 (amended): for N = 1, a signature produced by the single-party fast
path `secp256k1_aggsig_sign_single` with no external public nonce (empty
`R_assoc`) is accepted by the single-party verifier
`secp256k1_aggsig_verify_single` with no explicit pubnonce; the aggregate
verifier `secp256k1_aggsig_verify` derives its challenge differently (a
double hash binding the public key, not SHA256(ser(R) ‖ m)) and does not in
general accept such signatures. -/
theorem claim_C3 (B : Backend) (msg32 seed : List Nat) (fuel : Nat) (sk : Scalar)
    (sig : List Nat)
    (h : signSingle B msg32 (scalarBytes sk) none none seed fuel = some sig) :
    verifySingle B sig msg32 none (sk * pointG) = true := by
  unfold signSingle at h
  cases hsn : signSingleNonce B none seed fuel with
  | none => rw [hsn] at h; simp at h
  | some kK =>
    obtain ⟨k, K⟩ := kK
    rw [hsn] at h
    obtain ⟨hKG, hqimp, hk0⟩ := signSingleNonce_spec B none seed fuel k K hsn
    have hKne : K ≠ 0 := by
      rw [hKG, pointG, mul_one]
      exact hk0 rfl
    have hq : B.hasQuadY K = true := hqimp hKne
    dsimp only at h
    rw [hq] at h
    simp only [Bool.not_true, Bool.false_eq_true, ite_false] at h
    rw [scalarSetB32_scalarBytes] at h
    dsimp only at h
    simp only [Bool.false_eq_true, ite_false] at h
    rw [Option.some_inj] at h
    subst h
    unfold verifySingle
    rw [List.take_left' (scalarBytes_length _), List.drop_left' (scalarBytes_length _),
      scalarSetB32_scalarBytes, feSetB32_feBytes]
    dsimp only
    rw [B.setXquad_xCoord K hq]
    unfold ecmultMultiVar
    have hr1 : List.range 1 = [0] := rfl
    rw [hr1]
    simp only [List.foldl_cons, List.foldl_nil, Option.some_bind, Option.map_some',
      Bool.false_eq_true, ite_false]
    have hQ : (sk * (computeSighashSingle B K msg32).1 + k) * pointG +
        (-(computeSighashSingle B K msg32).1) * (sk * pointG) = K := by
      rw [hKG, pointG]
      ring
    rw [hQ]
    simp [hq]

/-- C3 counterexample: a concrete signature produced by the single-party
fast path (secret key 1, empty `R_assoc`) on which the aggregate verifier,
run with the one-element pubkey list, returns invalid — refuting the claimed
cross-acceptance. -/
theorem claim_C3_counterexample :
    signThenAggVerify toyBackend zeros32 (scalarBytes 1) zeros32 1 (1 * pointG) =
      some false := by
  decide

/-- C3 witness: the concrete single-party signature for secret key 1 is
accepted by the single-party verifier. -/
theorem claim_C3_witness :
    verifySingle toyBackend sigSingle1 zeros32 none (1 * pointG) = true :=
  claim_C3 toyBackend zeros32 zeros32 1 1 sigSingle1 (by decide)

/-- C1 (amended): for every backend, every N ≥ 1 secret keys with derived
public keys, every seed and message — whenever the full protocol run
(context creation, nonce generation for every slot 0..N−1, a partial
signature for every slot with its secret key, and combining) completes
successfully **and the combined public nonce produced by the generation
phase is not the point at infinity**, the aggregate verifier accepts the
resulting 64-byte signature against the same ordered public-key list and
message.  (When the honestly generated nonces sum to the point at
infinity — an event of negligible probability, exhibited by the
counterexample — every step still succeeds but the verifier rejects,
because the y-coordinate of the point at infinity is not a quadratic
residue.) -/
theorem claim_C1 (B : Backend) (sks : List Scalar) (seed msg32 : List Nat)
    (fuel : Nat)
    (hne : sks ≠ [])
    (hrun : (runAggProtocol B sks seed msg32 fuel).isSome = true)
    (hR : ∀ s1 : Session, genAllFrom B fuel 0 (sks.map fun a => a * pointG).length
      (contextCreate B (sks.map fun a => a * pointG) seed) = some s1 →
      s1.pubnonceSum ≠ 0) :
    runAggProtocol B sks seed msg32 fuel = some true := by
  have hrun2 := hrun
  unfold runAggProtocol at hrun2
  dsimp only at hrun2
  cases hg : genAllFrom B fuel 0 (sks.map fun a => a * pointG).length
      (contextCreate B (sks.map fun a => a * pointG) seed) with
  | none =>
    rw [hg] at hrun2
    simp at hrun2
  | some s1 =>
    rw [hg] at hrun2
    simp only [Option.some_bind] at hrun2
    cases hs : signAllFrom B msg32 (fun i => scalarBytes (sks.getD i 0)) 0
        (sks.map fun a => a * pointG).length s1 with
    | none =>
      rw [hs] at hrun2
      simp at hrun2
    | some out =>
      exact runAggProtocol_verifies B sks seed msg32 fuel s1 out hne hg hs (hR s1 hg)

/-- C1 counterexample: with three cosigners (all secret keys 1) and an RNG
whose successive draws are (n−1)/2, (n−1)/2 and 1, every protocol step —
context creation, three nonce generations, three partial signatures, and
combining — succeeds (the run returns `some`), yet the aggregate verifier
rejects the produced signature: the honestly generated nonces sum to the
point at infinity. -/
theorem claim_C1_counterexample :
    runAggProtocol toyBackend [1, 1, 1] zeros32 zeros32 1 = some false := by
  decide

/-- C1 witness: a complete one-cosigner run under the concrete backend whose
combined nonce is not the point at infinity; the verifier accepts. -/
theorem claim_C1_witness :
    runAggProtocol toyBackend [1] zeros32 zeros32 1 = some true := by
  refine claim_C1 toyBackend [1] zeros32 zeros32 1 (by decide) (by decide) ?_
  intro s1 h
  injection h with h1
  rw [← h1]
  decide
